import Mathlib

/-!
Verification development for the e-commerce product recommender
(`recommender_engine.py`).

The Python source is shallowly embedded below.  Conventions of the embedding:

* Ratings, prices and similarity values are modelled as exact rationals.
  The Python program computes with IEEE doubles; every concrete instance in
  this file is chosen so that the float computation and the rational
  computation agree (the comments at each instance justify this).
* The two similarity matrices (sklearn `cosine_similarity` over the pivoted
  user×product rating matrix, and over the TF-IDF vectors of
  `category + " " + description`) involve square roots and logarithms, so the
  similarity lookup is passed to the ranking functions as an explicit
  function argument `simU` / `simP`.  Every theorem below either quantifies
  over this argument or supplies a concrete rational matrix together with a
  comment deriving its entries exactly from the data of the instance.
* `pandas.Series.sort_values(ascending=False)` is implemented by numpy as the
  reversal of a stable ascending argsort (numpy quicksort is an insertion
  sort, hence stable, for the small arrays appearing in every instance here);
  `pandasSortDesc` models this.  Python's builtin `sorted(key, reverse=True)`
  is stable in the other sense (ties keep their original order); `pySortDesc`
  models that.
* CPython `dict` preserves insertion order (language guarantee); a dict is
  modelled as an insertion-ordered association list.  CPython `set` of small
  non-negative ints (all elements below the table size 8, at most 4 inserts)
  iterates in ascending order; `pySetList` models `list(set)` this way and
  every concrete instance stays inside that regime.
* Python list slicing `l[:n]` (which accepts negative `n`) is `pyTake`;
  `matrix[i]` row indexing, which raises `IndexError` out of range and wraps
  negative indices, is `pyIndex`; fallible operations return `Except`.
-/

namespace RecSys

attribute [local semireducible] Rat.add Rat.mul Rat.inv Rat.sub

/-- Python list slicing `l[:n]` for an `int` bound `n`: a non-negative bound
takes at most `n` elements, a negative bound drops `|n|` elements from the
end (empty result if `|n| ≥ len(l)`). -/
def pyTake (n : ℤ) (l : List α) : List α :=
  if 0 ≤ n then l.take n.toNat else l.take ((l.length : ℤ) + n).toNat

/-- Stable insertion: `le x y = true` means the new element `x` belongs
after the already-placed `y`, so `x` moves past every such `y` and stops
before the first element it does not belong after. -/
def insBy (le : α → α → Bool) (x : α) : List α → List α
  | [] => [x]
  | y :: ys => if le x y then y :: insBy le x ys else x :: y :: ys

/-- Stable insertion sort: elements are inserted in list order, and an
element never moves past one it compares `le` to, so equal elements keep
their original relative order. -/
def sortByFold (le : α → α → Bool) (l : List α) : List α :=
  l.foldl (fun acc x => insBy le x acc) []

/-- Stable ascending sort by the rational value component. -/
def sortAscVal (l : List (α × ℚ)) : List (α × ℚ) :=
  sortByFold (fun a b => decide (b.2 ≤ a.2)) l

/-- `pandas.Series.sort_values(ascending=False)`: numpy computes a stable
ascending argsort and reverses it, so equal values end up in reversed
original order. -/
def pandasSortDesc (l : List (α × ℚ)) : List (α × ℚ) :=
  (sortAscVal l).reverse

/-- Python `sorted(pairs, key=lambda x: x[1], reverse=True)`: stable
descending sort — equal values keep their original (insertion) order. -/
def pySortDesc (l : List (α × ℚ)) : List (α × ℚ) :=
  sortByFold (fun a b => decide (a.2 ≤ b.2)) l

/-- Ascending sort of naturals (models both the sorted index/columns of
`pandas.pivot_table` and the iteration order of a CPython set of small
non-negative ints). -/
def sortNat (l : List ℕ) : List ℕ :=
  sortByFold (fun a b => decide (b ≤ a)) l

/-- First-seen deduplication with an accumulator of already-seen keys;
models `pandas.Series.unique()` (which preserves first occurrence order)
and the membership set of a growing Python `set`/`dict`. -/
def firstSeenAux [DecidableEq α] (seen : List α) : List α → List α
  | [] => []
  | x :: xs =>
    if seen.contains x then firstSeenAux seen xs
    else x :: firstSeenAux (seen ++ [x]) xs

/-- `pandas.Series.unique()`: distinct elements in first-seen order. -/
def firstSeenDedup [DecidableEq α] (l : List α) : List α :=
  firstSeenAux [] l

/-- `list(s)` for a CPython set `s` of small non-negative ints (all below
the initial table size 8, at most 4 elements, ints hash to themselves):
iteration visits the slots in ascending order. -/
def pySetList (l : List ℕ) : List ℕ :=
  sortNat (firstSeenDedup l)

/-- `numpy.ndarray.argsort()` of a row of rationals: positions sorted by
ascending value; stable for the short rows of every instance in this file. -/
def argsortAsc (vals : List ℚ) : List ℕ :=
  (sortAscVal vals.enum).map (·.1)

/-- Python row indexing `matrix[idx]` for an `int` index into `L` rows:
in-range and negative-wrapped indices succeed, everything else raises
`IndexError`. -/
def pyIndex (L : ℕ) (idx : ℤ) : Option ℕ :=
  if 0 ≤ idx ∧ idx < (L : ℤ) then some idx.toNat
  else if -(L : ℤ) ≤ idx ∧ idx < 0 then some (idx + L).toNat
  else none

/-- `interaction_type` values occurring in the data model (§3 of the spec:
an enum of `view` and `purchase`). -/
inductive IType where
  | view
  | purchase
deriving DecidableEq, Repr

/-- One row of the `interactions` table. -/
structure Interaction where
  user_id : ℕ
  product_id : ℕ
  interaction_type : IType
  rating : ℚ
deriving DecidableEq, Repr

/-- One row of the `products` table (`price` and `rating` are exact
rationals standing for the float columns). -/
structure Product where
  id : ℕ
  name : String
  category : String
  description : String
  price : ℚ
  rating : ℚ
deriving DecidableEq, Repr

/-- The state of a `RecommenderEngine`: the two loaded DataFrames, plus the
`content` column that `content_based_filtering` writes onto `products_df`
(line 114 of the source); `none` until that assignment has happened. -/
structure Engine where
  products : List Product
  contentCol : Option (List String)
  interactions : List Interaction
deriving DecidableEq, Repr

/-- A default product record, used only as the (never-reached) fallback of
positional catalog lookups at indices produced by `argsort`. -/
def dfltProduct : Product := ⟨0, "", "", "", 0, 0⟩

deriving instance DecidableEq for Except

/-- `interactions_df[interactions_df['interaction_type'] == 'purchase']`. -/
def purchaseRows (e : Engine) : List Interaction :=
  e.interactions.filter (fun i => i.interaction_type == IType.purchase)

/-- Row labels of the `pivot_table` in `collaborative_filtering`: the
distinct user ids of purchase rows, sorted ascending by pandas. -/
def pivotUsers (e : Engine) : List ℕ :=
  sortNat (firstSeenDedup ((purchaseRows e).map (·.user_id)))

/-- Column labels of the `pivot_table`: the distinct product ids of purchase
rows, sorted ascending by pandas. -/
def pivotProducts (e : Engine) : List ℕ :=
  sortNat (firstSeenDedup ((purchaseRows e).map (·.product_id)))

/-- The ratings of the purchase rows of a `(user, product)` pair. -/
def cellRatings (e : Engine) (u p : ℕ) : List ℚ :=
  ((purchaseRows e).filter (fun i => i.user_id == u && i.product_id == p)).map (·.rating)

/-- One cell of the user×product matrix: `pivot_table` aggregates duplicate
`(user, product)` purchases with its default `aggfunc='mean'`, and
`fill_value=0` fills absent pairs. -/
def cell (e : Engine) (u p : ℕ) : ℚ :=
  let rs := cellRatings e u p
  if rs.length = 0 then 0 else rs.sum / rs.length

/-- `set(user_product_matrix.columns[user_product_matrix.loc[u] > 0])`:
the products user `u` purchased with positive rating cell.  The pandas
column Index is ascending, and a CPython set of small ints iterates
ascending, so the list is kept in ascending order. -/
def userProducts (e : Engine) (u : ℕ) : List ℕ :=
  (pivotProducts e).filter (fun p => decide (0 < cell e u p))

/-- `user_similarity_df[u]`: the column of the user-similarity matrix for
user `u`, indexed by the (ascending) pivot users.  `simU v u` abstracts
`cosine_similarity(user_product_matrix)[v][u]`. -/
def collabCol (simU : ℕ → ℕ → ℚ) (e : Engine) (u : ℕ) : List (ℕ × ℚ) :=
  (pivotUsers e).map (fun v => (v, simU v u))

/-- Line 79 of the source:
`user_similarity_df[user_id].sort_values(ascending=False)[1:6]` — the five
entries after the first of the descending-sorted similarity column.  Note
that this drops the single top entry, not the target user. -/
def collabNeighbors (simU : ℕ → ℕ → ℚ) (e : Engine) (u : ℕ) : List (ℕ × ℚ) :=
  ((pandasSortDesc (collabCol simU e u)).drop 1).take 5

/-- `similar_user_products - user_products` for neighbor `v` of user `u`:
set difference of two ascending small-int sets, iterated ascending. -/
def newProducts (e : Engine) (u v : ℕ) : List ℕ :=
  (userProducts e v).filter (fun p => !((userProducts e u).contains p))

/-- Python dict update `d[k] = d.get(k, 0) + v` (lines 89–92 of the source:
insert `0` on first sight, then `+=`); insertion order is preserved. -/
def dictAdd (d : List (ℕ × ℚ)) (k : ℕ) (v : ℚ) : List (ℕ × ℚ) :=
  if d.any (fun kv => kv.1 == k) then
    d.map (fun kv => if kv.1 == k then (kv.1, kv.2 + v) else kv)
  else d ++ [(k, v)]

/-- Python dict assignment `d[k] = v`: overwrite in place or append. -/
def dictSet (d : List (ℕ × ℚ)) (k : ℕ) (v : ℚ) : List (ℕ × ℚ) :=
  if d.any (fun kv => kv.1 == k) then
    d.map (fun kv => if kv.1 == k then (kv.1, v) else kv)
  else d ++ [(k, v)]

/-- Folding a list of `(key, value)` events into a dict with `dictAdd`. -/
def dictFold (d : List (ℕ × ℚ)) (evs : List (ℕ × ℚ)) : List (ℕ × ℚ) :=
  evs.foldl (fun acc pv => dictAdd acc pv.1 pv.2) d

/-- The `recommendations` dict of `collaborative_filtering` (lines 82–92):
for each neighbor in order, for each of its new products (ascending), add
the neighbor's similarity score. -/
def collabWeights (simU : ℕ → ℕ → ℚ) (e : Engine) (u : ℕ) : List (ℕ × ℚ) :=
  (collabNeighbors simU e u).foldl
    (fun acc vs => (newProducts e u vs.1).foldl (fun a p => dictAdd a p vs.2) acc) []

/-- The same accumulation flattened to a list of `(product, score)` events;
`collabWeights` is proved equal to `dictFold [] ∘ collabEvents`. -/
def collabEvents (simU : ℕ → ℕ → ℚ) (e : Engine) (u : ℕ) : List (ℕ × ℚ) :=
  (collabNeighbors simU e u).flatMap
    (fun vs => (newProducts e u vs.1).map (fun p => (p, vs.2)))

/-- Sum of the values of the events carrying key `p`. -/
def sumOf (evs : List (ℕ × ℚ)) (p : ℕ) : ℚ :=
  ((evs.filter (fun pv => pv.1 == p)).map (·.2)).sum

/-- The accumulated neighbor-similarity weight of candidate product `p`. -/
def accWeight (simU : ℕ → ℕ → ℚ) (e : Engine) (u : ℕ) (p : ℕ) : ℚ :=
  sumOf (collabEvents simU e u) p

/-- `RecommenderEngine.collaborative_filtering(user_id, n)` (lines 50–95). -/
def collaborative_filtering (simU : ℕ → ℕ → ℚ) (e : Engine) (u : ℕ) (n : ℤ) :
    List ℕ :=
  if e.interactions.isEmpty then []
  else if (purchaseRows e).isEmpty then []
  else if !((pivotUsers e).contains u) then []
  else (pyTake n (pySortDesc (collabWeights simU e u))).map (·.1)

/-- Seed products of `content_based_filtering` (lines 102–112): distinct
purchased product ids in first-seen order; if none, the first three distinct
viewed ids; if none, the literal default `[1, 2, 3]`. -/
def seedsOf (e : Engine) (u : ℕ) : List ℕ :=
  let purch := firstSeenDedup
    ((e.interactions.filter
      (fun i => i.user_id == u && i.interaction_type == IType.purchase)).map (·.product_id))
  if purch.isEmpty then
    let views := firstSeenDedup
      ((e.interactions.filter
        (fun i => i.user_id == u && i.interaction_type == IType.view)).map (·.product_id))
    if views.isEmpty then [1, 2, 3] else views.take 3
  else purch

/-- The `content` column written onto `products_df` at line 114:
`category + ' ' + description` of each product row. -/
def mkContentCol (ps : List Product) : List String :=
  ps.map (fun p => p.category ++ " " ++ p.description)

/-- Row `i` of the `L×L` content-similarity matrix, with
`simP i j` abstracting `cosine_similarity(tfidf_matrix)[i][j]`. -/
def simRow (simP : ℕ → ℕ → ℚ) (L i : ℕ) : List ℚ :=
  (List.range L).map (fun j => simP i j)

/-- `content_similarity[idx].argsort()[-6:-1][::-1]` (line 126): of the
ascending argsort of row `idx`, drop the last position (the most similar,
generically the product itself), keep the up-to-5 before it, reversed to
descending similarity. -/
def topSimilar (simP : ℕ → ℕ → ℚ) (L idx : ℕ) : List ℕ :=
  let a := argsortAsc (simRow simP L idx)
  ((a.take (a.length - 1)).drop (a.length - 6)).reverse

/-- The candidate-collection loop of `content_based_filtering` (lines
123–131), in seed order; indexing row `product_id - 1` of the `L×L` matrix
raises `IndexError` when the id is beyond the catalog.  The filter at line
130 tests against the whole seed array `seeds`, which is threaded through
the recursion unchanged. -/
def contentCollectFrom (simP : ℕ → ℕ → ℚ) (ps : List Product) (seeds : List ℕ) :
    List ℕ → Except String (List ℕ)
  | [] => .ok []
  | s :: rest =>
    match pyIndex ps.length ((s : ℤ) - 1) with
    | none => .error "IndexError"
    | some idx =>
      let here := ((topSimilar simP ps.length idx).map
          (fun j => (ps.getD j dfltProduct).id)).filter
        (fun pid => !(seeds.contains pid))
      match contentCollectFrom simP ps seeds rest with
      | .error m => .error m
      | .ok tail => .ok (here ++ tail)

/-- `RecommenderEngine.content_based_filtering(user_id, n)` (lines 97–133).
Returns the updated engine state (the `content` column assignment at line
114 mutates the shared `products_df`) together with the result or the
raised exception. -/
def content_based_filtering (simP : ℕ → ℕ → ℚ) (e : Engine) (u : ℕ) (n : ℤ) :
    Engine × Except String (List ℕ) :=
  if e.products.isEmpty || e.interactions.isEmpty then (e, .ok [])
  else
    let seeds := seedsOf e u
    let e' := { e with contentCol := some (mkContentCol e.products) }
    match contentCollectFrom simP e.products seeds seeds with
    | .error m => (e', .error m)
    | .ok cands => (e', .ok (pyTake n (pySetList cands)))

/-- The `all_recs` dict of `hybrid_recommendations` (lines 140–148): rank
position scores `(L - i) * 0.6` assigned from the collaborative list, then
`(L - i) * 0.4` added (or assigned) from the content list. -/
def fuseDict (c k : List ℕ) : List (ℕ × ℚ) :=
  let d1 := c.enum.foldl
    (fun acc ip => dictSet acc ip.2 (((c.length - ip.1 : ℕ) : ℚ) * (3/5))) []
  k.enum.foldl
    (fun acc ip => dictAdd acc ip.2 (((k.length - ip.1 : ℕ) : ℚ) * (2/5))) d1

/-- The rank-position score events feeding `fuseDict`, flattened. -/
def fuseEvents (c k : List ℕ) : List (ℕ × ℚ) :=
  c.enum.map (fun ip => (ip.2, ((c.length - ip.1 : ℕ) : ℚ) * (3/5)))
    ++ k.enum.map (fun ip => (ip.2, ((k.length - ip.1 : ℕ) : ℚ) * (2/5)))

/-- Total rank-position score of product `p` for the two input lists. -/
def hybridScore (c k : List ℕ) (p : ℕ) : ℚ :=
  sumOf (fuseEvents c k) p

/-- The fusion step of `hybrid_recommendations` (lines 140–151) as a
function of the two already-computed ranked lists. -/
def hybrid_fuse (c k : List ℕ) (n : ℤ) : List ℕ :=
  (pyTake n (pySortDesc (fuseDict c k))).map (·.1)

/-- `RecommenderEngine.hybrid_recommendations(user_id, n)` (lines 135–151):
collaborative list, then content list (whose computation mutates the engine
state and may raise), then rank-position fusion. -/
def hybrid_recommendations (simU simP : ℕ → ℕ → ℚ) (e : Engine) (u : ℕ)
    (n : ℤ) : Engine × Except String (List ℕ) :=
  let collab := collaborative_filtering simU e u n
  match content_based_filtering simP e u n with
  | (e', .error m) => (e', .error m)
  | (e', .ok content) => (e', .ok (hybrid_fuse collab content n))

/-- `RecommenderEngine.get_user_history(user_id)` (lines 44–48). -/
def get_user_history (e : Engine) (u : ℕ) : List Interaction :=
  e.interactions.filter (fun i => i.user_id == u)

/- ===================== LLMExplainer ===================== -/

/-- Character-list prefix test (structural recursion so that concrete
instances evaluate in the kernel). -/
def isPre : List Char → List Char → Bool
  | [], _ => true
  | _ :: _, [] => false
  | a :: as, b :: bs => a == b && isPre as bs

/-- Character-list substring test: does `sub` occur contiguously in `s`? -/
def hasSubAux (sub : List Char) : List Char → Bool
  | [] => sub.isEmpty
  | c :: cs => isPre sub (c :: cs) || hasSubAux sub cs

/-- Python substring test `sub in s`. -/
def strOccurs (sub s : String) : Bool :=
  hasSubAux sub.data s.data

/-- Python `str.lower()` for the ASCII product names of this repository. -/
def lowerStr (s : String) : String :=
  ⟨s.data.map Char.toLower⟩

/-- The `category_keywords` dict of `_generate_smart_explanation`
(lines 217–223), in its (insertion-ordered) iteration order. -/
def category_keywords : List (String × List String) :=
  [("Electronics", ["headphone", "mouse", "charger", "laptop", "phone"]),
   ("Sports & Fitness", ["yoga", "fitness", "sport", "gym", "exercise"]),
   ("Books", ["book", "novel", "planner"]),
   ("Home & Kitchen", ["kitchen", "pan", "coffee", "bottle", "knife"]),
   ("Fashion", ["shoes", "jacket", "backpack", "glasses"])]

/-- The `categories` set accumulated at lines 225–229, kept in first-match
order.  (CPython iterates a set of strings in hash order, which is only
observable through `" and ".join` when two or more categories match; the
theorems below rely on the order only in single-category situations.) -/
def matchedCategories (names : List String) : List String :=
  names.foldl (fun acc name =>
    category_keywords.foldl (fun acc2 ck =>
      if ck.2.any (fun kw => strOccurs kw (lowerStr name)) then
        (if acc2.contains ck.1 then acc2 else acc2 ++ [ck.1])
      else acc2) acc) []

/-- `" and ".join(categories)`. -/
def joinAnd (l : List String) : String :=
  String.intercalate " and " l

/-- Two-digit zero-padded rendering of a natural below 100. -/
def pad2 (r : ℕ) : String :=
  (if r < 10 then "0" else "") ++ toString r

/-- Python float formatting `f"{x:.2f}"` for the non-negative,
hundredth-valued prices of this repository's data. -/
def fmt2dp (q : ℚ) : String :=
  let c := (q * 100).floor.toNat
  toString (c / 100) ++ "." ++ pad2 (c % 100)

/-- Python `str(x)` for the non-negative, tenth-valued float ratings of this
repository's data (`str(4.5) = "4.5"`, `str(4.0) = "4.0"`). -/
def fmtFloat1 (q : ℚ) : String :=
  let t := (q * 10).floor.toNat
  toString (t / 10) ++ "." ++ toString (t % 10)

/-- An apostrophe, built from its code point. -/
def apostr : String := String.singleton (Char.ofNat 39)

/-- The fallback sentence of `_generate_smart_explanation` (lines 237–238). -/
def genericLine (p : Product) : String :=
  "We think you" ++ apostr ++ "ll love this " ++ p.name ++ "! It" ++ apostr
    ++ "s highly rated (" ++ fmtFloat1 p.rating ++ "/5) in the " ++ p.category
    ++ " category."

/-- `LLMExplainer._generate_smart_explanation(product, purchased_names)`
(lines 213–238); the Python early-return structure is expressed with
flipped guards. -/
def smartExplanation (p : Product) (purchased_names : List String) : String :=
  if purchased_names.isEmpty then genericLine p
  else
    let cats := matchedCategories purchased_names
    if cats.isEmpty then genericLine p
    else
      "Based on your interest in " ++ joinAnd cats ++ ", we recommend this "
        ++ p.name ++ ". It has a " ++ fmtFloat1 p.rating
        ++ "/5 rating and offers excellent value at $" ++ fmt2dp p.price ++ "."

/-- `LLMExplainer.generate_explanation(engine, product, user_history)`
(lines 198–211): purchased ids from the history, names looked up through
`products_df['id'].isin(...)` (hence in catalog order). -/
def generate_explanation (e : Engine) (p : Product)
    (history : List Interaction) : String :=
  let purchased_ids :=
    (history.filter (fun i => i.interaction_type == IType.purchase)).map (·.product_id)
  let names :=
    if purchased_ids.isEmpty then []
    else (e.products.filter (fun pr => purchased_ids.contains pr.id)).map (·.name)
  smartExplanation p names

/- ===================== Statistics ===================== -/

/-- The record returned by `RecommenderEngine.get_statistics` (lines
162–189). -/
structure Stats where
  total_products : ℕ
  total_users : ℕ
  total_interactions : ℕ
  total_purchases : ℕ
  categories : List String
  avg_rating : ℚ
  price_min : ℚ
  price_max : ℚ
  price_avg : ℚ
deriving DecidableEq, Repr

/-- Mean of a list of rationals (0 for the empty list, matching the zeroed
defaults of the empty-data branch). -/
def qMean (l : List ℚ) : ℚ :=
  if l.length = 0 then 0 else l.sum / l.length

/-- Minimum of a list of rationals. -/
def qListMin : List ℚ → ℚ
  | [] => 0
  | x :: xs => xs.foldl min x

/-- Maximum of a list of rationals. -/
def qListMax : List ℚ → ℚ
  | [] => 0
  | x :: xs => xs.foldl max x

/-- `RecommenderEngine.get_statistics()`: a pure read of the engine state. -/
def get_statistics (e : Engine) : Stats :=
  if e.products.isEmpty || e.interactions.isEmpty then
    ⟨0, 0, 0, 0, [], 0, 0, 0, 0⟩
  else
    ⟨e.products.length,
     (firstSeenDedup (e.interactions.map (·.user_id))).length,
     e.interactions.length,
     (purchaseRows e).length,
     firstSeenDedup (e.products.map (·.category)),
     qMean (e.products.map (·.rating)),
     qListMin (e.products.map (·.price)),
     qListMax (e.products.map (·.price)),
     qMean (e.products.map (·.price))⟩

/- ===================== Spec-side definitions ===================== -/

/-- Spec-side sort of scored products: descending score, ties broken by
ascending product id (the tie rule asserted by the spec and claims). -/
def sortSpecDescAsc (l : List (ℕ × ℚ)) : List (ℕ × ℚ) :=
  sortByFold (fun a b => decide (a.2 < b.2 ∨ (a.2 = b.2 ∧ b.1 < a.1))) l

/-- Spec-side hybrid fusion: identical scoring dict, but final order per the
claimed tie rule (descending score, ascending id on ties). -/
def hybridFuseSpecAsc (c k : List ℕ) (n : ℤ) : List ℕ :=
  (pyTake n (sortSpecDescAsc (fuseDict c k))).map (·.1)

/-- Spec-side collaborative ranking: identical accumulation, but final
order per the claimed tie rule (descending weight, ascending id on ties). -/
def collabRankSpecAsc (simU : ℕ → ℕ → ℚ) (e : Engine) (u : ℕ) (n : ℤ) :
    List ℕ :=
  if e.interactions.isEmpty then []
  else if (purchaseRows e).isEmpty then []
  else if !((pivotUsers e).contains u) then []
  else (pyTake n (sortSpecDescAsc (collabWeights simU e u))).map (·.1)

/-- Spec-side content ranking per the claim's words: identical candidate
collection, but the accumulation returned in first-seen order across seeds
instead of set-iteration order. -/
def contentRankFirstSeen (simP : ℕ → ℕ → ℚ) (e : Engine) (u : ℕ) (n : ℤ) :
    Except String (List ℕ) :=
  if e.products.isEmpty || e.interactions.isEmpty then .ok []
  else
    let seeds := seedsOf e u
    match contentCollectFrom simP e.products seeds seeds with
    | .error m => .error m
    | .ok cands => .ok (pyTake n (firstSeenDedup cands))

/- ===================== Concrete instances ===================== -/

/-- A generic catalog row with the given id, for instances whose claims do
not read the text columns. -/
def mkP (i : ℕ) : Product := ⟨i, "Item", "Misc", "plain", 10, 4⟩

/-- Catalog of four products whose `category + " " + description` texts use
the two tokens `aa`, `bb` with counts (3,4), (12,5), (5,12), (24,7).  Both
tokens occur in all four documents, so their TF-IDF idf factors are equal
and each TF-IDF vector is proportional to its raw count vector; the vector
norms are the Pythagorean 5, 13, 13, 25, so every pairwise cosine is an
exact rational (see `csim4`). -/
def prodsPy : List Product :=
  [⟨1, "A1", "aa", "aa aa bb bb bb bb", 1999/100, 9/2⟩,
   ⟨2, "A2", "aa", "aa aa aa aa aa aa aa aa aa aa aa bb bb bb bb bb", 2999/100, 21/5⟩,
   ⟨3, "A3", "aa", "aa aa aa aa bb bb bb bb bb bb bb bb bb bb bb bb", 999/100, 19/5⟩,
   ⟨4, "A4", "aa",
    "aa aa aa aa aa aa aa aa aa aa aa aa aa aa aa aa aa aa aa aa aa aa aa bb bb bb bb bb bb bb",
    4999/100, 22/5⟩]

/-- The content-similarity matrix of `prodsPy` (0-indexed).  With count
vectors v0=(3,4), v1=(12,5), v2=(5,12), v3=(24,7) and norms 5, 13, 13, 25:
cos01 = (36+20)/65 = 56/65, cos02 = (15+48)/65 = 63/65,
cos03 = (72+28)/125 = 4/5, cos12 = (60+60)/169 = 120/169,
cos13 = (288+35)/325 = 323/325, cos23 = (120+84)/325 = 204/325.
All entries are distinct, so the float computation realizes the same strict
comparisons. -/
def csim4 (i j : ℕ) : ℚ :=
  if i == j then 1
  else
    match i, j with
    | 0, 1 | 1, 0 => 56/65
    | 0, 2 | 2, 0 => 63/65
    | 0, 3 | 3, 0 => 4/5
    | 1, 2 | 2, 1 => 120/169
    | 1, 3 | 3, 1 => 323/325
    | 2, 3 | 3, 2 => 204/325
    | _, _ => 0

/-- Engine with the `prodsPy` catalog and a single purchase row: user 1
bought product 1 with rating 5. -/
def engPy : Engine :=
  ⟨prodsPy, none, [⟨1, 1, .purchase, 5⟩]⟩

/-- User-similarity for `engPy`: the purchase pivot has the single row of
user 1, and `cosine_similarity` of one row is the 1×1 matrix `[[1.0]]`. -/
def usim1 (_ _ : ℕ) : ℚ := 1

/-- Engine for the collaborative tie-break instance: purchases
u1:{P1:5}, u2:{P1:3, P2:4}, u3:{P1:3, P5:4}. -/
def engE4 : Engine :=
  ⟨[mkP 1, mkP 2, mkP 3, mkP 4, mkP 5], none,
   [⟨1, 1, .purchase, 5⟩,
    ⟨2, 1, .purchase, 3⟩, ⟨2, 2, .purchase, 4⟩,
    ⟨3, 1, .purchase, 3⟩, ⟨3, 5, .purchase, 4⟩]⟩

/-- User-similarity of `engE4`'s pivot rows u1=(5,0,0), u2=(3,4,0),
u3=(3,0,4) over columns [1,2,5]: cos(u1,u2) = 15/(5·5) = 3/5,
cos(u1,u3) = 15/(5·5) = 3/5, cos(u2,u3) = 9/(5·5) = 9/25.  In floating
point the two 3/5 entries are produced by the identical computation
(sqrt(25)=5 exactly, then 3/5 rounds to the same double), so the tie is
exact in the float run as well. -/
def usim4 (i j : ℕ) : ℚ :=
  if i == j then 1
  else
    match i, j with
    | 1, 2 | 2, 1 => 3/5
    | 1, 3 | 3, 1 => 3/5
    | 2, 3 | 3, 2 => 9/25
    | _, _ => 0

/-- Engine for the self-neighbor instance: two users with the identical
purchase set {P1:5}. -/
def engE5 : Engine :=
  ⟨[mkP 1], none, [⟨1, 1, .purchase, 5⟩, ⟨2, 1, .purchase, 5⟩]⟩

/-- User-similarity of `engE5`: both pivot rows are (5), so every cosine is
exactly 1.0 (also in floating point). -/
def usim5 (_ _ : ℕ) : ℚ := 1

/-- Engine with a referentially inconsistent interaction: the catalog has
products 1..3 but user 7 purchased product 9. -/
def eng7 : Engine :=
  ⟨[mkP 1, mkP 2, mkP 3], none, [⟨7, 9, .purchase, 5⟩]⟩

/-- A trivial similarity argument for instances whose run never consults
the matrix. -/
def simOne (_ _ : ℕ) : ℚ := 1

/-- The §8 scenario catalog: Wireless Mouse / Yoga Mat / Novel. -/
def engX : Engine :=
  ⟨[⟨1, "Wireless Mouse", "Electronics", "Ergonomic wireless mouse", 2999/100, 9/2⟩,
    ⟨2, "Yoga Mat", "Sports & Fitness", "Non slip yoga mat", 1999/100, 23/5⟩,
    ⟨3, "Novel", "Books", "Bestselling novel", 999/100, 21/5⟩],
   none,
   [⟨7, 1, .purchase, 5⟩]⟩

/- ===================== Generic list lemmas ===================== -/

theorem insBy_perm (le : α → α → Bool) (x : α) :
    ∀ l : List α, List.Perm (insBy le x l) (x :: l)
  | [] => List.Perm.refl _
  | y :: ys => by
    by_cases h : le x y = true
    · rw [insBy, if_pos h]
      exact ((insBy_perm le x ys).cons y).trans (List.Perm.swap x y ys)
    · rw [insBy, if_neg h]

theorem foldl_insBy_perm (le : α → α → Bool) :
    ∀ (l acc : List α), List.Perm (l.foldl (fun acc x => insBy le x acc) acc) (acc ++ l)
  | [], acc => by simp
  | x :: xs, acc => by
    refine (foldl_insBy_perm le xs (insBy le x acc)).trans ?_
    refine (((insBy_perm le x acc).append_right xs).trans ?_)
    exact List.perm_middle.symm

theorem sortByFold_perm (le : α → α → Bool) (l : List α) : List.Perm (sortByFold le l) l := by
  simpa using foldl_insBy_perm le l []

theorem insBy_pairwise {le : α → α → Bool} {R : α → α → Prop}
    (h1 : ∀ a b, le a b = true → R b a) (h2 : ∀ a b, le a b = false → R a b)
    (ht : ∀ {a b c : α}, R a b → R b c → R a c) (x : α) :
    ∀ {l : List α}, l.Pairwise R → (insBy le x l).Pairwise R
  | [], _ => by simp [insBy]
  | y :: ys, h => by
    rw [List.pairwise_cons] at h
    by_cases hxy : le x y = true
    · rw [insBy, if_pos hxy, List.pairwise_cons]
      refine ⟨fun z hz => ?_, insBy_pairwise h1 h2 ht x h.2⟩
      rcases List.mem_cons.mp ((insBy_perm le x ys).mem_iff.mp hz) with h' | hzy
      · rw [h']; exact h1 x y hxy
      · exact h.1 z hzy
    · rw [insBy, if_neg hxy, List.pairwise_cons]
      have hx : R x y := h2 x y (Bool.eq_false_iff.mpr hxy)
      refine ⟨fun z hz => ?_, List.pairwise_cons.mpr h⟩
      rcases List.mem_cons.mp hz with h' | hzy
      · rw [h']; exact hx
      · exact ht hx (h.1 z hzy)

theorem foldl_insBy_pairwise {le : α → α → Bool} {R : α → α → Prop}
    (h1 : ∀ a b, le a b = true → R b a) (h2 : ∀ a b, le a b = false → R a b)
    (ht : ∀ {a b c : α}, R a b → R b c → R a c) :
    ∀ (l : List α) {acc : List α}, acc.Pairwise R →
      (l.foldl (fun acc x => insBy le x acc) acc).Pairwise R
  | [], _, h => h
  | x :: xs, _, h =>
    foldl_insBy_pairwise h1 h2 ht xs (insBy_pairwise h1 h2 ht x h)

theorem sortByFold_pairwise {le : α → α → Bool} {R : α → α → Prop}
    (h1 : ∀ a b, le a b = true → R b a) (h2 : ∀ a b, le a b = false → R a b)
    (ht : ∀ {a b c : α}, R a b → R b c → R a c) (l : List α) :
    (sortByFold le l).Pairwise R :=
  foldl_insBy_pairwise h1 h2 ht l List.Pairwise.nil

theorem pySortDesc_perm (l : List (α × ℚ)) : List.Perm (pySortDesc l) l :=
  sortByFold_perm _ l

theorem pySortDesc_pairwise (l : List (α × ℚ)) :
    (pySortDesc l).Pairwise (fun a b => b.2 ≤ a.2) := by
  unfold pySortDesc
  refine sortByFold_pairwise ?_ ?_ ?_ l
  · intro a b h
    exact of_decide_eq_true h
  · intro a b h
    exact le_of_not_le (of_decide_eq_false h)
  · intro a b c hab hbc
    exact le_trans hbc hab

theorem sortNat_perm (l : List ℕ) : List.Perm (sortNat l) l :=
  sortByFold_perm _ l

theorem sortNat_pairwise (l : List ℕ) : (sortNat l).Pairwise (· ≤ ·) := by
  unfold sortNat
  refine sortByFold_pairwise ?_ ?_ ?_ l
  · intro a b h
    exact of_decide_eq_true h
  · intro a b h
    exact le_of_not_le (of_decide_eq_false h)
  · intro a b c hab hbc
    exact le_trans hab hbc

theorem pyTake_eq_take (n : ℤ) (l : List α) :
    pyTake n l = l.take (if 0 ≤ n then n.toNat else (((l.length : ℤ) + n).toNat)) := by
  rw [pyTake]
  split <;> rfl

theorem pyTake_sublist (n : ℤ) (l : List α) : List.Sublist (pyTake n l) l := by
  rw [pyTake_eq_take]; exact List.take_sublist _ l

theorem pyTake_length_le {n : ℤ} (hn : 0 ≤ n) (l : List α) :
    (pyTake n l).length ≤ n.toNat := by
  rw [pyTake, if_pos hn, List.length_take]
  exact Nat.min_le_left _ _

theorem pyTake_map (f : α → β) (n : ℤ) (l : List α) :
    (pyTake n l).map f = pyTake n (l.map f) := by
  rw [pyTake, pyTake, List.length_map]
  split <;> rw [List.map_take]

theorem firstSeenAux_sub [DecidableEq α] :
    ∀ (l seen : List α) (x : α), x ∈ firstSeenAux seen l → x ∈ l
  | [], _, _, h => by simp [firstSeenAux] at h
  | y :: ys, seen, x, h => by
    rw [firstSeenAux] at h
    split at h
    · exact List.mem_cons_of_mem y (firstSeenAux_sub ys seen x h)
    · rcases List.mem_cons.mp h with rfl | h'
      · exact List.mem_cons_self x ys
      · exact List.mem_cons_of_mem y (firstSeenAux_sub ys _ x h')

theorem firstSeenAux_nodup [DecidableEq α] :
    ∀ (l seen : List α),
      (firstSeenAux seen l).Nodup ∧ ∀ x ∈ firstSeenAux seen l, x ∉ seen
  | [], seen => by simp [firstSeenAux]
  | y :: ys, seen => by
    rw [firstSeenAux]
    split
    · exact firstSeenAux_nodup ys seen
    · next hns =>
      have ih := firstSeenAux_nodup ys (seen ++ [y])
      have hy : y ∉ seen := by
        intro hmem
        exact hns (List.elem_eq_true_of_mem hmem)
      refine ⟨List.nodup_cons.mpr ⟨fun hmem => ?_, ih.1⟩, fun x hx => ?_⟩
      · exact (ih.2 y hmem) (by simp)
      · rcases List.mem_cons.mp hx with rfl | hx'
        · exact hy
        · intro hmem
          exact ih.2 x hx' (by simp [hmem])

theorem firstSeenDedup_nodup [DecidableEq α] (l : List α) :
    (firstSeenDedup l).Nodup :=
  (firstSeenAux_nodup l []).1

theorem firstSeenDedup_sub [DecidableEq α] {l : List α} {x : α}
    (h : x ∈ firstSeenDedup l) : x ∈ l :=
  firstSeenAux_sub l [] x h

theorem firstSeenAux_congr [DecidableEq α] :
    ∀ (l s₁ s₂ : List α), (∀ a ∈ l, (a ∈ s₁ ↔ a ∈ s₂)) →
      firstSeenAux s₁ l = firstSeenAux s₂ l
  | [], _, _, _ => rfl
  | y :: ys, s₁, s₂, h => by
    rw [firstSeenAux, firstSeenAux]
    have hy : (s₁.contains y) = (s₂.contains y) := by
      have hiff := h y (List.mem_cons_self y ys)
      rw [Bool.eq_iff_iff, List.contains_iff_exists_mem_beq, List.contains_iff_exists_mem_beq]
      constructor <;> rintro ⟨a, ha, hb⟩
      · rw [beq_iff_eq] at hb
        subst hb
        exact ⟨y, hiff.mp ha, by simp⟩
      · rw [beq_iff_eq] at hb
        subst hb
        exact ⟨y, hiff.mpr ha, by simp⟩
    rw [hy]
    split
    · exact firstSeenAux_congr ys s₁ s₂ (fun a ha => h a (List.mem_cons_of_mem y ha))
    · rw [firstSeenAux_congr ys (s₁ ++ [y]) (s₂ ++ [y])
        (fun a ha => by
          simp only [List.mem_append, List.mem_singleton]
          exact or_congr_left (h a (List.mem_cons_of_mem y ha)))]

theorem firstSeenAux_append [DecidableEq α] :
    ∀ (l₁ l₂ seen : List α),
      firstSeenAux seen (l₁ ++ l₂)
        = firstSeenAux seen l₁ ++ firstSeenAux (seen ++ firstSeenAux seen l₁) l₂
  | [], l₂, seen => by simp [firstSeenAux]
  | y :: ys, l₂, seen => by
    rw [List.cons_append, firstSeenAux, firstSeenAux]
    split
    · exact firstSeenAux_append ys l₂ seen
    · rw [firstSeenAux_append ys l₂ (seen ++ [y]), List.cons_append]
      rw [List.append_assoc seen [y] (firstSeenAux (seen ++ [y]) ys)]
      rfl

theorem firstSeenAux_of_nodup [DecidableEq α] :
    ∀ {l : List α} (seen : List α), l.Nodup →
      firstSeenAux seen l = l.filter (fun k => !(seen.contains k))
  | [], _, _ => rfl
  | y :: ys, seen, h => by
    have hnd := List.nodup_cons.mp h
    rw [firstSeenAux, List.filter_cons]
    by_cases hc : seen.contains y = true
    · rw [if_pos hc]
      have : (!(seen.contains y)) = false := by rw [hc]; rfl
      rw [this, if_neg (by simp)]
      exact firstSeenAux_of_nodup seen hnd.2
    · rw [if_neg hc]
      have : (!(seen.contains y)) = true := by
        rw [Bool.eq_false_iff.mpr hc]; rfl
      rw [this, if_pos rfl]
      rw [firstSeenAux_congr ys (seen ++ [y]) seen
        (fun a ha => by
          simp only [List.mem_append, List.mem_singleton]
          constructor
          · rintro (h' | rfl)
            · exact h'
            · exact absurd ha hnd.1
          · exact Or.inl)]
      rw [firstSeenAux_of_nodup seen hnd.2]

/- ===================== Dict lemmas ===================== -/

theorem sumOf_cons (k0 : ℕ) (v0 : ℚ) (evs : List (ℕ × ℚ)) (p : ℕ) :
    sumOf ((k0, v0) :: evs) p = (if k0 = p then v0 else 0) + sumOf evs p := by
  by_cases h : k0 = p
  · simp [sumOf, List.filter_cons, h]
  · simp [sumOf, List.filter_cons, h]

theorem sumOf_append (l₁ l₂ : List (ℕ × ℚ)) (p : ℕ) :
    sumOf (l₁ ++ l₂) p = sumOf l₁ p + sumOf l₂ p := by
  simp [sumOf, List.filter_append]

theorem dict_any_iff (d : List (ℕ × ℚ)) (k : ℕ) :
    (d.any (fun kv => kv.1 == k)) = true ↔ k ∈ d.map (·.1) := by
  simp [List.any_eq_true, beq_iff_eq]

theorem dictAdd_of_fresh {d : List (ℕ × ℚ)} {k : ℕ} {v : ℚ}
    (h : k ∉ d.map (·.1)) : dictAdd d k v = d ++ [(k, v)] := by
  rw [dictAdd, if_neg]
  intro hc
  exact h ((dict_any_iff d k).mp hc)

theorem dictSet_of_fresh {d : List (ℕ × ℚ)} {k : ℕ} {v : ℚ}
    (h : k ∉ d.map (·.1)) : dictSet d k v = d ++ [(k, v)] := by
  rw [dictSet, if_neg]
  intro hc
  exact h ((dict_any_iff d k).mp hc)

theorem dictAdd_of_mem {d : List (ℕ × ℚ)} {k : ℕ} (v : ℚ)
    (h : k ∈ d.map (·.1)) :
    dictAdd d k v = d.map (fun kv => if kv.1 == k then (kv.1, kv.2 + v) else kv) := by
  rw [dictAdd, if_pos ((dict_any_iff d k).mpr h)]

theorem dictFold_master :
    ∀ (evs : List (ℕ × ℚ)) (ks : List ℕ) (f : ℕ → ℚ), ks.Nodup →
      (∀ k, k ∉ ks → f k = 0) →
      dictFold (ks.map fun k => (k, f k)) evs
        = (ks ++ firstSeenAux ks (evs.map (·.1))).map (fun k => (k, f k + sumOf evs k))
  | [], ks, f, _, _ => by
    simp [dictFold, firstSeenAux, sumOf]
  | (k0, v0) :: rest, ks, f, hnd, hf => by
    have hstep : dictFold (ks.map fun k => (k, f k)) ((k0, v0) :: rest)
        = dictFold (dictAdd (ks.map fun k => (k, f k)) k0 v0) rest := rfl
    rw [hstep]
    have hkeys : (ks.map fun k => (k, f k)).map (·.1) = ks := by
      rw [List.map_map]
      exact List.map_id ks
    by_cases hk : k0 ∈ ks
    · have hmem : k0 ∈ (ks.map fun k => (k, f k)).map (·.1) := by rw [hkeys]; exact hk
      rw [dictAdd_of_mem v0 hmem, List.map_map]
      have hcomp : ((fun kv : ℕ × ℚ => if kv.1 == k0 then (kv.1, kv.2 + v0) else kv)
            ∘ fun k => (k, f k))
          = fun k => (k, if k = k0 then f k + v0 else f k) := by
        funext j
        by_cases hj : j = k0
        · simp [Function.comp, hj]
        · simp [Function.comp, hj]
      rw [hcomp]
      rw [dictFold_master rest ks (fun j => if j = k0 then f j + v0 else f j) hnd
        (fun j hj => by
          show (if j = k0 then f j + v0 else f j) = 0
          have hjk : ¬(j = k0) := fun hc => hj (by rw [hc]; exact hk)
          rw [if_neg hjk]
          exact hf j hj)]
      have hfsa : firstSeenAux ks (((k0, v0) :: rest).map (·.1))
          = firstSeenAux ks (rest.map (·.1)) := by
        show firstSeenAux ks (k0 :: rest.map (·.1)) = _
        rw [firstSeenAux, if_pos (List.elem_eq_true_of_mem hk)]
      rw [hfsa]
      congr 1
      funext j
      show (j, (if j = k0 then f j + v0 else f j) + sumOf rest j)
          = (j, f j + sumOf ((k0, v0) :: rest) j)
      rw [sumOf_cons]
      by_cases hj : j = k0
      · rw [if_pos hj, if_pos hj.symm, add_assoc]
      · rw [if_neg hj, if_neg (fun hc => hj hc.symm), zero_add]
    · have hfresh : k0 ∉ (ks.map fun k => (k, f k)).map (·.1) := by rw [hkeys]; exact hk
      rw [dictAdd_of_fresh hfresh]
      have hsplit : (ks.map fun k => (k, f k)) ++ [(k0, v0)]
          = (ks ++ [k0]).map (fun k => (k, if k = k0 then v0 else f k)) := by
        rw [List.map_append]
        congr 1
        · refine List.map_congr_left ?_
          intro a ha
          show (a, f a) = (a, if a = k0 then v0 else f a)
          have hak : ¬(a = k0) := fun hc => hk (hc ▸ ha)
          rw [if_neg hak]
        · simp
      rw [hsplit]
      have hnd' : (ks ++ [k0]).Nodup := by
        rw [List.nodup_append]
        exact ⟨hnd, List.nodup_singleton k0,
          fun a ha hb => hk ((List.mem_singleton.mp hb) ▸ ha)⟩
      rw [dictFold_master rest (ks ++ [k0]) (fun j => if j = k0 then v0 else f j) hnd'
        (fun j hj => by
          show (if j = k0 then v0 else f j) = 0
          have hj1 : j ∉ ks := fun hc => hj (List.mem_append.mpr (Or.inl hc))
          have hj2 : ¬(j = k0) := fun hc => hj (List.mem_append.mpr (Or.inr (by simp [hc])))
          rw [if_neg hj2]
          exact hf j hj1)]
      have hfsa : firstSeenAux ks (((k0, v0) :: rest).map (·.1))
          = k0 :: firstSeenAux (ks ++ [k0]) (rest.map (·.1)) := by
        show firstSeenAux ks (k0 :: rest.map (·.1)) = _
        rw [firstSeenAux, if_neg]
        intro hc
        exact hk (List.mem_of_elem_eq_true hc)
      rw [hfsa, List.append_assoc, List.singleton_append]
      congr 1
      funext j
      show (j, (if j = k0 then v0 else f j) + sumOf rest j)
          = (j, f j + sumOf ((k0, v0) :: rest) j)
      rw [sumOf_cons]
      by_cases hj : j = k0
      · rw [if_pos hj, if_pos hj.symm, hj, hf k0 hk, zero_add]
      · rw [if_neg hj, if_neg (fun hc => hj hc.symm), zero_add]

theorem dictFold_eq (evs : List (ℕ × ℚ)) :
    dictFold [] evs
      = (firstSeenAux [] (evs.map (·.1))).map (fun k => (k, sumOf evs k)) := by
  have h := dictFold_master evs [] (fun _ => 0) List.nodup_nil (fun _ _ => rfl)
  simpa using h

theorem dictFold_keys (evs : List (ℕ × ℚ)) :
    (dictFold [] evs).map (·.1) = firstSeenAux [] (evs.map (·.1)) := by
  rw [dictFold_eq, List.map_map]
  exact List.map_id _

theorem mem_dictFold {evs : List (ℕ × ℚ)} {pr : ℕ × ℚ}
    (h : pr ∈ dictFold [] evs) :
    pr.1 ∈ evs.map (·.1) ∧ pr.2 = sumOf evs pr.1 := by
  rw [dictFold_eq] at h
  rcases List.mem_map.mp h with ⟨j, hj, hpr⟩
  rw [← hpr]
  exact ⟨firstSeenAux_sub _ _ _ hj, rfl⟩

theorem dictFold_keys_nodup (evs : List (ℕ × ℚ)) :
    ((dictFold [] evs).map (·.1)).Nodup := by
  rw [dictFold_keys]
  exact (firstSeenAux_nodup _ _).1

/- ===================== Accumulation bridge lemmas ===================== -/

theorem inner_foldl_eq (e : Engine) (u : ℕ) :
    ∀ (ns : List (ℕ × ℚ)) (acc : List (ℕ × ℚ)),
      ns.foldl (fun acc vs => (newProducts e u vs.1).foldl
          (fun a p => dictAdd a p vs.2) acc) acc
        = dictFold acc (ns.flatMap fun vs => (newProducts e u vs.1).map (fun p => (p, vs.2)))
  | [], acc => by simp [dictFold]
  | vs :: ns, acc => by
    rw [List.foldl_cons, inner_foldl_eq e u ns, List.flatMap_cons]
    have happ : dictFold acc ((newProducts e u vs.1).map (fun p => (p, vs.2))
          ++ ns.flatMap fun vs => (newProducts e u vs.1).map (fun p => (p, vs.2)))
        = dictFold (dictFold acc ((newProducts e u vs.1).map (fun p => (p, vs.2))))
            (ns.flatMap fun vs => (newProducts e u vs.1).map (fun p => (p, vs.2))) := by
      rw [dictFold, dictFold, dictFold, List.foldl_append]
    rw [happ]
    congr 1
    rw [dictFold, List.foldl_map]

theorem collabWeights_eq (simU : ℕ → ℕ → ℚ) (e : Engine) (u : ℕ) :
    collabWeights simU e u = dictFold [] (collabEvents simU e u) := by
  rw [collabWeights, collabEvents, inner_foldl_eq]

theorem foldl_dictSet_eq :
    ∀ (l d : List (ℕ × ℚ)), (l.map (·.1)).Nodup →
      (∀ kv ∈ l, kv.1 ∉ d.map (·.1)) →
      l.foldl (fun acc kv => dictSet acc kv.1 kv.2) d = dictFold d l
  | [], _, _, _ => rfl
  | kv :: rest, d, hnd, hfr => by
    rw [List.foldl_cons]
    have hf : kv.1 ∉ d.map (·.1) := hfr kv (List.mem_cons_self _ _)
    have hstep : dictFold d (kv :: rest) = dictFold (dictAdd d kv.1 kv.2) rest := rfl
    rw [dictSet_of_fresh hf, hstep, dictAdd_of_fresh hf]
    rw [List.map_cons] at hnd
    have hpair := List.nodup_cons.mp hnd
    refine foldl_dictSet_eq rest (d ++ [(kv.1, kv.2)]) hpair.2 ?_
    intro kv' h'
    rw [List.map_append, List.mem_append]
    rintro (hc | hc)
    · exact hfr kv' (List.mem_cons_of_mem kv h') hc
    · have hkk : kv'.1 = kv.1 := by simpa using hc
      have hmm : kv.1 ∈ rest.map (·.1) := by
        rw [← hkk]
        exact List.mem_map_of_mem (·.1) h'
      exact hpair.1 hmm

theorem enumFrom_pair_fst (w : ℕ → ℚ) :
    ∀ (c : List ℕ) (s : ℕ),
      ((List.enumFrom s c).map (fun ip => (ip.2, w ip.1))).map (·.1) = c
  | [], _ => rfl
  | x :: xs, s => by
    rw [List.enumFrom_cons]
    simp only [List.map_cons]
    rw [enumFrom_pair_fst w xs (s + 1)]

theorem fuseEvents_keys (c k : List ℕ) : (fuseEvents c k).map (·.1) = c ++ k := by
  rw [fuseEvents, List.map_append]
  have h1 := enumFrom_pair_fst (fun i => ((c.length - i : ℕ) : ℚ) * (3/5)) c 0
  have h2 := enumFrom_pair_fst (fun i => ((k.length - i : ℕ) : ℚ) * (2/5)) k 0
  rw [show c.enum = List.enumFrom 0 c from rfl, show k.enum = List.enumFrom 0 k from rfl]
  rw [h1, h2]

theorem fuseDict_eq (c k : List ℕ) (hc : c.Nodup) :
    fuseDict c k = dictFold [] (fuseEvents c k) := by
  rw [fuseDict, fuseEvents]
  have hkeys1 : ((c.enum.map fun ip => (ip.2, ((c.length - ip.1 : ℕ) : ℚ) * (3/5))).map (·.1)) = c :=
    enumFrom_pair_fst (fun i => ((c.length - i : ℕ) : ℚ) * (3/5)) c 0
  have h1 : c.enum.foldl
        (fun acc ip => dictSet acc ip.2 (((c.length - ip.1 : ℕ) : ℚ) * (3/5))) []
      = dictFold [] (c.enum.map fun ip => (ip.2, ((c.length - ip.1 : ℕ) : ℚ) * (3/5))) := by
    rw [← List.foldl_map (fun ip : ℕ × ℕ => (ip.2, ((c.length - ip.1 : ℕ) : ℚ) * (3/5)))
      (fun acc kv => dictSet acc kv.1 kv.2) c.enum []]
    exact foldl_dictSet_eq _ [] (by rw [hkeys1]; exact hc) (by simp)
  have h2 : ∀ d : List (ℕ × ℚ), k.enum.foldl
        (fun acc ip => dictAdd acc ip.2 (((k.length - ip.1 : ℕ) : ℚ) * (2/5))) d
      = dictFold d (k.enum.map fun ip => (ip.2, ((k.length - ip.1 : ℕ) : ℚ) * (2/5))) := by
    intro d
    rw [dictFold, List.foldl_map]
  rw [h1, h2]
  rw [dictFold, dictFold, dictFold, List.foldl_append]

/- ===================== Positional score lemmas ===================== -/

theorem sumOf_enumFrom (w : ℕ → ℚ) :
    ∀ (l : List ℕ) (s : ℕ), l.Nodup → ∀ p : ℕ,
      sumOf ((List.enumFrom s l).map fun ip => (ip.2, w ip.1)) p
        = if p ∈ l then w (s + List.indexOf p l) else 0
  | [], _, _, p => by simp [sumOf]
  | x :: xs, s, hnd, p => by
    have hnd' := List.nodup_cons.mp hnd
    rw [List.enumFrom_cons, List.map_cons, sumOf_cons,
      sumOf_enumFrom w xs (s + 1) hnd'.2 p]
    by_cases hp : p = x
    · have hpx : p ∉ xs := hp ▸ hnd'.1
      rw [if_pos (hp ▸ rfl : x = p), if_neg hpx, if_pos (by rw [hp]; exact List.mem_cons_self x xs)]
      rw [hp, List.indexOf_cons_self, add_zero, add_zero]
    · rw [if_neg (fun hc => hp hc.symm), zero_add]
      by_cases hpm : p ∈ xs
      · rw [if_pos hpm, if_pos (List.mem_cons_of_mem x hpm)]
        rw [List.indexOf_cons_ne xs (fun hc => hp hc.symm)]
        congr 1
        omega
      · rw [if_neg hpm, if_neg (by
          intro hc
          rcases List.mem_cons.mp hc with hc' | hc'
          · exact hp hc'
          · exact hpm hc')]

theorem hybridScore_formula (c k : List ℕ) (hc : c.Nodup) (hk : k.Nodup) (p : ℕ) :
    hybridScore c k p
      = (if p ∈ c then ((c.length - List.indexOf p c : ℕ) : ℚ) * (3/5) else 0)
        + (if p ∈ k then ((k.length - List.indexOf p k : ℕ) : ℚ) * (2/5) else 0) := by
  rw [hybridScore, fuseEvents, sumOf_append]
  rw [show c.enum = List.enumFrom 0 c from rfl, show k.enum = List.enumFrom 0 k from rfl]
  rw [sumOf_enumFrom (fun i => ((c.length - i : ℕ) : ℚ) * (3/5)) c 0 hc p,
    sumOf_enumFrom (fun i => ((k.length - i : ℕ) : ℚ) * (2/5)) k 0 hk p]
  simp only [Nat.zero_add]

theorem sumOf_map_const (s : ℚ) :
    ∀ (ps : List ℕ), ps.Nodup → ∀ p : ℕ,
      sumOf (ps.map fun q => (q, s)) p = if p ∈ ps then s else 0
  | [], _, p => by simp [sumOf]
  | x :: xs, hnd, p => by
    have hnd' := List.nodup_cons.mp hnd
    rw [List.map_cons, sumOf_cons, sumOf_map_const s xs hnd'.2 p]
    by_cases hp : p = x
    · have hpx : p ∉ xs := hp ▸ hnd'.1
      rw [if_pos hp.symm, if_neg hpx, if_pos (hp ▸ List.mem_cons_self x xs), add_zero]
    · rw [if_neg (fun hc => hp hc.symm), zero_add]
      by_cases hpm : p ∈ xs
      · rw [if_pos hpm, if_pos (List.mem_cons_of_mem x hpm)]
      · rw [if_neg hpm, if_neg (by
          intro hc
          rcases List.mem_cons.mp hc with hc' | hc'
          · exact hp hc'
          · exact hpm hc')]

theorem pivotProducts_nodup (e : Engine) : (pivotProducts e).Nodup := by
  rw [pivotProducts]
  exact (sortNat_perm _).nodup_iff.mpr (firstSeenDedup_nodup _)

theorem userProducts_nodup (e : Engine) (u : ℕ) : (userProducts e u).Nodup :=
  (pivotProducts_nodup e).filter _

theorem newProducts_nodup (e : Engine) (u v : ℕ) : (newProducts e u v).Nodup :=
  (userProducts_nodup e v).filter _

theorem accWeight_formula (simU : ℕ → ℕ → ℚ) (e : Engine) (u : ℕ) (p : ℕ) :
    accWeight simU e u p
      = (((collabNeighbors simU e u).filter
          (fun vs => (newProducts e u vs.1).contains p)).map (·.2)).sum := by
  rw [accWeight, collabEvents]
  generalize collabNeighbors simU e u = ns
  induction ns with
  | nil => simp [sumOf]
  | cons vs ns ih =>
    rw [List.flatMap_cons, sumOf_append, ih, List.filter_cons]
    rw [sumOf_map_const vs.2 (newProducts e u vs.1) (newProducts_nodup e u vs.1) p]
    by_cases hm : p ∈ newProducts e u vs.1
    · rw [if_pos hm, if_pos (List.elem_eq_true_of_mem hm), List.map_cons, List.sum_cons]
    · rw [if_neg hm, if_neg (fun hc => hm (List.mem_of_elem_eq_true hc)), zero_add]

/- ===================== Content collection lemmas ===================== -/

theorem contentCollectFrom_ok (simP : ℕ → ℕ → ℚ) (ps : List Product)
    (seeds : List ℕ) :
    ∀ l : List ℕ, (∀ s ∈ l, 1 ≤ s ∧ s ≤ ps.length) →
      ∃ r, contentCollectFrom simP ps seeds l = Except.ok r
  | [], _ => ⟨[], rfl⟩
  | s :: rest, h => by
    obtain ⟨hs1, hs2⟩ := h s (List.mem_cons_self s rest)
    have hidx : pyIndex ps.length ((s : ℤ) - 1) = some ((s : ℤ) - 1).toNat := by
      rw [pyIndex, if_pos]
      omega
    obtain ⟨r, hr⟩ := contentCollectFrom_ok simP ps seeds rest
      (fun t ht => h t (List.mem_cons_of_mem s ht))
    refine ⟨((topSimilar simP ps.length ((s : ℤ) - 1).toNat).map
        (fun j => (ps.getD j dfltProduct).id)).filter
      (fun pid => !(seeds.contains pid)) ++ r, ?_⟩
    rw [contentCollectFrom, hidx, hr]

theorem contentCollectFrom_not_seed (simP : ℕ → ℕ → ℚ) (ps : List Product)
    (seeds : List ℕ) :
    ∀ (l r : List ℕ), contentCollectFrom simP ps seeds l = Except.ok r →
      ∀ p ∈ r, p ∉ seeds
  | [], r, h, p, hp => by
    rw [contentCollectFrom] at h
    have hr : r = [] := by
      cases h
      rfl
    rw [hr] at hp
    simp at hp
  | s :: rest, r, h, p, hp => by
    rw [contentCollectFrom] at h
    rcases hidx : pyIndex ps.length ((s : ℤ) - 1) with _ | idx
    · rw [hidx] at h
      simp at h
    · rw [hidx] at h
      rcases hcc : contentCollectFrom simP ps seeds rest with m | tail
      · rw [hcc] at h
        simp at h
      · rw [hcc] at h
        have hr : (((topSimilar simP ps.length idx).map
              (fun j => (ps.getD j dfltProduct).id)).filter
            (fun pid => !(seeds.contains pid))) ++ tail = r := by
          cases h
          rfl
        rw [← hr] at hp
        rcases List.mem_append.mp hp with hh | ht
        · have hfl := (List.mem_filter.mp hh).2
          intro hc
          have hcp : (seeds.contains p) = true := List.elem_eq_true_of_mem hc
          rw [hcp] at hfl
          simp at hfl
        · exact contentCollectFrom_not_seed simP ps seeds rest tail hcc p ht

theorem content_ok_of_seed_range (simP : ℕ → ℕ → ℚ) (e : Engine) (u : ℕ)
    (n : ℤ) (hseeds : ∀ s ∈ seedsOf e u, 1 ≤ s ∧ s ≤ e.products.length) :
    ∃ l, (content_based_filtering simP e u n).2 = Except.ok l := by
  rw [content_based_filtering]
  by_cases hg : (e.products.isEmpty || e.interactions.isEmpty) = true
  · rw [if_pos hg]
    exact ⟨[], rfl⟩
  · rw [if_neg hg]
    obtain ⟨r, hr⟩ :=
      contentCollectFrom_ok simP e.products (seedsOf e u) (seedsOf e u) hseeds
    dsimp only
    rw [hr]
    exact ⟨_, rfl⟩

theorem seedsOf_range (e : Engine) (u : ℕ)
    (hr : ∀ i ∈ e.interactions, 1 ≤ i.product_id ∧ i.product_id ≤ e.products.length)
    (hL : 3 ≤ e.products.length) :
    ∀ s ∈ seedsOf e u, 1 ≤ s ∧ s ≤ e.products.length := by
  have hsub : ∀ (g : Interaction → Bool) (s : ℕ),
      s ∈ firstSeenDedup ((e.interactions.filter g).map (·.product_id)) →
      1 ≤ s ∧ s ≤ e.products.length := by
    intro g s hs
    have h1 := firstSeenDedup_sub hs
    rcases List.mem_map.mp h1 with ⟨i, hi, hip⟩
    rw [← hip]
    exact hr i (List.mem_filter.mp hi).1
  intro s hs
  rw [seedsOf] at hs
  dsimp only at hs
  split at hs
  · split at hs
    · simp only [List.mem_cons, List.not_mem_nil, or_false] at hs
      rcases hs with h | h | h <;> omega
    · exact hsub _ s ((List.take_sublist 3 _).subset hs)
  · exact hsub _ s hs

theorem seedsOf_default (e : Engine) (u : ℕ)
    (hp : ∀ i ∈ e.interactions, i.user_id = u → i.interaction_type ≠ IType.purchase)
    (hv : ∀ i ∈ e.interactions, i.user_id = u → i.interaction_type ≠ IType.view) :
    seedsOf e u = [1, 2, 3] := by
  have h1 : e.interactions.filter
      (fun i => i.user_id == u && i.interaction_type == IType.purchase) = [] := by
    refine List.filter_eq_nil_iff.mpr (fun i hi => ?_)
    rw [Bool.and_eq_true]
    rintro ⟨ha, hb⟩
    exact hp i hi (by simpa using ha) (by simpa using hb)
  have h2 : e.interactions.filter
      (fun i => i.user_id == u && i.interaction_type == IType.view) = [] := by
    refine List.filter_eq_nil_iff.mpr (fun i hi => ?_)
    rw [Bool.and_eq_true]
    rintro ⟨ha, hb⟩
    exact hv i hi (by simpa using ha) (by simpa using hb)
  rw [seedsOf, h1, h2]
  simp [firstSeenDedup, firstSeenAux]

/- ===================== Claim theorems ===================== -/

/-- C1 (amended): for duplicate-free input lists and `0 ≤ n`, `hybridRank`
scores the item at 0-indexed position `i` of a list of length `L` as
`(L - i) * weight` with weight `0.6` for the collaborative list and `0.4`
for the content list, sums the two scores for a product appearing in both
lists (a product in only one list keeps that list's score), orders products
by descending total score — with ties broken by first-insertion order
(collaborative products in list order, then content-only products), not by
ascending product id — and returns the top `n`. -/
theorem C1_hybrid_fuse_amended (c k : List ℕ) (n : ℤ)
    (hc : c.Nodup) (hk : k.Nodup) (hn : 0 ≤ n) :
    (fuseDict c k).map (·.1) = c ++ k.filter (fun p => !(c.contains p))
    ∧ (∀ pr ∈ fuseDict c k, pr.2 = hybridScore c k pr.1)
    ∧ (∀ p : ℕ, hybridScore c k p
        = (if p ∈ c then ((c.length - List.indexOf p c : ℕ) : ℚ) * (3/5) else 0)
          + (if p ∈ k then ((k.length - List.indexOf p k : ℕ) : ℚ) * (2/5) else 0))
    ∧ hybrid_fuse c k n = (pyTake n (pySortDesc (fuseDict c k))).map (·.1)
    ∧ (hybrid_fuse c k n).Pairwise
        (fun a b => hybridScore c k b ≤ hybridScore c k a)
    ∧ (hybrid_fuse c k n).Nodup
    ∧ (hybrid_fuse c k n).length ≤ n.toNat := by
  have hdict := fuseDict_eq c k hc
  have hkeys : (fuseDict c k).map (·.1) = c ++ k.filter (fun p => !(c.contains p)) := by
    rw [hdict, dictFold_keys, fuseEvents_keys, firstSeenAux_append]
    have hfc : firstSeenAux ([] : List ℕ) c = c := by
      rw [firstSeenAux_of_nodup [] hc]
      simp
    rw [hfc]
    have hfk : firstSeenAux ([] ++ c) k = k.filter (fun p => !(c.contains p)) :=
      firstSeenAux_of_nodup ([] ++ c) hk
    rw [hfk]
  have hmem : ∀ pr ∈ fuseDict c k, pr.2 = hybridScore c k pr.1 := by
    intro pr hpr
    rw [hdict] at hpr
    exact (mem_dictFold hpr).2
  have hpw : (hybrid_fuse c k n).Pairwise
      (fun a b => hybridScore c k b ≤ hybridScore c k a) := by
    rw [hybrid_fuse]
    refine List.pairwise_map.mpr ?_
    have hsorted := (pySortDesc_pairwise (fuseDict c k)).sublist
      (pyTake_sublist n (pySortDesc (fuseDict c k)))
    refine hsorted.imp_of_mem ?_
    intro a b ha hb hab
    have ha' : a ∈ fuseDict c k :=
      (pySortDesc_perm (fuseDict c k)).mem_iff.mp
        ((pyTake_sublist n _).subset ha)
    have hb' : b ∈ fuseDict c k :=
      (pySortDesc_perm (fuseDict c k)).mem_iff.mp
        ((pyTake_sublist n _).subset hb)
    rw [← hmem a ha', ← hmem b hb']
    exact hab
  have hnd : (hybrid_fuse c k n).Nodup := by
    rw [hybrid_fuse, pyTake_map]
    refine List.Nodup.sublist (pyTake_sublist n _) ?_
    refine ((pySortDesc_perm (fuseDict c k)).map (·.1)).nodup_iff.mpr ?_
    rw [hdict]
    exact dictFold_keys_nodup _
  have hlen : (hybrid_fuse c k n).length ≤ n.toNat := by
    rw [hybrid_fuse, List.length_map]
    exact pyTake_length_le hn _
  exact ⟨hkeys, hmem, hybridScore_formula c k hc hk, rfl, hpw, hnd, hlen⟩

/-- C1 (counterexample): with collaborative list `[9, 7]` and content list
`[2, 4, 5, 9, 6]`, products 9 and 2 tie at total score 2 (the float run
also produces exactly 2.0 for both), but the code emits 9 — inserted first,
via the collaborative phase — before the smaller id 2, while the claimed
ascending-id tie-break demands 2 first. -/
theorem C1_tiebreak_counterexample :
    hybridScore [9, 7] [2, 4, 5, 9, 6] 9 = hybridScore [9, 7] [2, 4, 5, 9, 6] 2
    ∧ hybrid_fuse [9, 7] [2, 4, 5, 9, 6] 6 = [9, 2, 4, 5, 7, 6]
    ∧ hybridFuseSpecAsc [9, 7] [2, 4, 5, 9, 6] 6 = [2, 9, 4, 5, 7, 6]
    ∧ hybrid_fuse [9, 7] [2, 4, 5, 9, 6] 6
        ≠ hybridFuseSpecAsc [9, 7] [2, 4, 5, 9, 6] 6 :=
  ⟨by decide, by decide, by decide, by decide⟩

/-- C1 (witness): the amended theorem applied at concrete inputs. -/
theorem C1_hybrid_fuse_w :
    ([1, 2] : List ℕ).Nodup ∧ ([2, 3] : List ℕ).Nodup ∧ (0 : ℤ) ≤ 5
    ∧ (hybrid_fuse [1, 2] [2, 3] 5).Pairwise
        (fun a b => hybridScore [1, 2] [2, 3] b ≤ hybridScore [1, 2] [2, 3] a)
    ∧ (hybrid_fuse [1, 2] [2, 3] 5).Nodup :=
  ⟨by decide, by decide, by decide,
    (C1_hybrid_fuse_amended [1, 2] [2, 3] 5 (by decide) (by decide) (by decide)).2.2.2.2.1,
    (C1_hybrid_fuse_amended [1, 2] [2, 3] 5 (by decide) (by decide) (by decide)).2.2.2.2.2.1⟩

/-- C2 (amended): for a user with no interaction rows at all,
`collaborativeRank` returns an empty list; `contentRank` (and hence
`hybridRank`) does not error — it falls back to the default seed set
`[1, 2, 3]` and, for a catalog of at least three products, returns an
ordinary (possibly non-empty) recommendation list. -/
theorem C2_unknown_user_amended (simU simP : ℕ → ℕ → ℚ) (e : Engine) (u : ℕ)
    (h : ∀ i ∈ e.interactions, i.user_id ≠ u) :
    (∀ n : ℤ, collaborative_filtering simU e u n = [])
    ∧ seedsOf e u = [1, 2, 3]
    ∧ (3 ≤ e.products.length →
        ∀ n : ℤ, ∃ l, (content_based_filtering simP e u n).2 = Except.ok l) := by
  have hnu : u ∉ pivotUsers e := by
    intro hc
    have h1 : u ∈ firstSeenDedup ((purchaseRows e).map (·.user_id)) :=
      (sortNat_perm _).mem_iff.mp hc
    rcases List.mem_map.mp (firstSeenDedup_sub h1) with ⟨i, hi, hiu⟩
    exact h i (List.mem_filter.mp hi).1 hiu
  have hseeds : seedsOf e u = [1, 2, 3] :=
    seedsOf_default e u (fun i hi hu _ => h i hi hu) (fun i hi hu _ => h i hi hu)
  refine ⟨fun n => ?_, hseeds, fun hL n => ?_⟩
  · rw [collaborative_filtering]
    split_ifs with h1 h2 h3
    · rfl
    · rfl
    · rfl
    · exfalso
      apply hnu
      have hcu : (pivotUsers e).contains u = true := by simpa using h3
      exact List.mem_of_elem_eq_true hcu
  · refine content_ok_of_seed_range simP e u n (fun s hs => ?_)
    rw [hseeds] at hs
    simp only [List.mem_cons, List.not_mem_nil, or_false] at hs
    rcases hs with h' | h' | h' <;> omega

/-- C2 (counterexample): user 99 has no interaction rows in `engPy`, yet
`contentRank` returns the non-empty list `[4]` via the cold-start default
seeds — the claim that every ranking operation returns an empty list for an
unknown user is false. -/
theorem C2_unknown_user_counterexample :
    (∀ i ∈ engPy.interactions, i.user_id ≠ 99)
    ∧ (content_based_filtering csim4 engPy 99 5).2 = Except.ok [4]
    ∧ Except.ok [4] ≠ (Except.ok ([] : List ℕ) : Except String (List ℕ)) :=
  ⟨by decide, by decide, by decide⟩

/-- C2 (witness): the amended theorem applied to `engPy` and user 99. -/
theorem C2_unknown_user_w :
    (∀ i ∈ engPy.interactions, i.user_id ≠ 99)
    ∧ collaborative_filtering usim1 engPy 99 5 = []
    ∧ seedsOf engPy 99 = [1, 2, 3] :=
  ⟨by decide,
    (C2_unknown_user_amended usim1 csim4 engPy 99 (by decide)).1 5,
    (C2_unknown_user_amended usim1 csim4 engPy 99 (by decide)).2.1⟩

/-- C3 (amended): `contentRank` accumulates, over seed products in seed
order, the most similar other products of each seed that are not in the
seed set, but collects them into a Python set and returns up to `n` of them
in the set's iteration order — ascending product id for the small ids
modelled here — rather than in first-seen accumulation order.  The returned
list is ascending, duplicate free, at most `n` long, and disjoint from the
seed set. -/
theorem C3_content_order_amended (simP : ℕ → ℕ → ℚ) (e : Engine) (u : ℕ)
    (n : ℤ) (r : List ℕ) (hn : 0 ≤ n)
    (h : (content_based_filtering simP e u n).2 = Except.ok r) :
    r.Pairwise (· ≤ ·) ∧ r.Nodup ∧ r.length ≤ n.toNat
    ∧ ∀ p ∈ r, p ∉ seedsOf e u := by
  rw [content_based_filtering] at h
  by_cases hg : (e.products.isEmpty || e.interactions.isEmpty) = true
  · rw [if_pos hg] at h
    have hr : r = [] := by
      have := h.symm
      simpa using this
    subst hr
    exact ⟨List.Pairwise.nil, List.nodup_nil, by simp, by simp⟩
  · rw [if_neg hg] at h
    dsimp only at h
    rcases hcc : contentCollectFrom simP e.products (seedsOf e u) (seedsOf e u)
      with m | cands
    · rw [hcc] at h
      simp at h
    · rw [hcc] at h
      have hr : r = pyTake n (pySetList cands) := by
        have := h.symm
        simpa using this
      subst hr
      refine ⟨?_, ?_, ?_, ?_⟩
      · exact (sortNat_pairwise _).sublist (pyTake_sublist n _)
      · exact ((sortNat_perm _).nodup_iff.mpr (firstSeenDedup_nodup _)).sublist
          (pyTake_sublist n _)
      · exact pyTake_length_le hn _
      · intro p hp
        have hp1 : p ∈ pySetList cands := (pyTake_sublist n _).subset hp
        have hp2 : p ∈ cands :=
          firstSeenDedup_sub ((sortNat_perm _).mem_iff.mp hp1)
        exact contentCollectFrom_not_seed simP e.products (seedsOf e u)
          (seedsOf e u) cands hcc p hp2

/-- C3 (counterexample): user 1 of `engPy` has the single seed `[1]`, whose
most-similar products in descending similarity are `[3, 2, 4]` — the
first-seen accumulation order of the claim — but the code returns
`list(set(...))` which iterates ascending: `[2, 3, 4]`. -/
theorem C3_content_order_counterexample :
    (content_based_filtering csim4 engPy 1 5).2 = Except.ok [2, 3, 4]
    ∧ contentRankFirstSeen csim4 engPy 1 5 = Except.ok [3, 2, 4]
    ∧ ([2, 3, 4] : List ℕ) ≠ [3, 2, 4] :=
  ⟨by decide, by decide, by decide⟩

/-- C3 (witness): the amended theorem applied to `engPy`, user 1, `n = 2`. -/
theorem C3_content_order_w :
    (0 : ℤ) ≤ 2
    ∧ (content_based_filtering csim4 engPy 1 2).2 = Except.ok [2, 3]
    ∧ ([2, 3] : List ℕ).Pairwise (· ≤ ·) ∧ ([2, 3] : List ℕ).Nodup
    ∧ ([2, 3] : List ℕ).length ≤ (2 : ℤ).toNat
    ∧ ∀ p ∈ ([2, 3] : List ℕ), p ∉ seedsOf engPy 1 := by
  have h := C3_content_order_amended csim4 engPy 1 2 [2, 3] (by decide) (by decide)
  exact ⟨by decide, by decide, h.1, h.2.1, h.2.2.1, h.2.2.2⟩

/-- C4 (amended): `collaborativeRank` sorts candidate products by
accumulated neighbor-similarity weight in descending order and returns the
top `n`, but equal-weight ties are broken by dict insertion order (neighbor
processing order, then ascending id within a neighbor's product set), not
by ascending product id.  The output is weight-descending, duplicate free,
at most `n` long, and every element is a product some neighbor purchased
that the target user did not. -/
theorem C4_collab_order_amended (simU : ℕ → ℕ → ℚ) (e : Engine) (u : ℕ)
    (n : ℤ) (hn : 0 ≤ n) :
    (collaborative_filtering simU e u n).Pairwise
        (fun a b => accWeight simU e u b ≤ accWeight simU e u a)
    ∧ (collaborative_filtering simU e u n).Nodup
    ∧ (collaborative_filtering simU e u n).length ≤ n.toNat
    ∧ (∀ p ∈ collaborative_filtering simU e u n,
        ∃ vs ∈ collabNeighbors simU e u, p ∈ newProducts e u vs.1)
    ∧ (∀ p : ℕ, accWeight simU e u p = (((collabNeighbors simU e u).filter
        (fun vs => (newProducts e u vs.1).contains p)).map (·.2)).sum) := by
  have hwts := collabWeights_eq simU e u
  rw [collaborative_filtering]
  split_ifs with h1 h2 h3
  · exact ⟨List.Pairwise.nil, List.nodup_nil, by simp, by simp,
      accWeight_formula simU e u⟩
  · exact ⟨List.Pairwise.nil, List.nodup_nil, by simp, by simp,
      accWeight_formula simU e u⟩
  · exact ⟨List.Pairwise.nil, List.nodup_nil, by simp, by simp,
      accWeight_formula simU e u⟩
  · have hmemw : ∀ pr ∈ collabWeights simU e u,
        pr.2 = accWeight simU e u pr.1 := by
      intro pr hpr
      rw [hwts] at hpr
      exact (mem_dictFold hpr).2
    refine ⟨?_, ?_, ?_, ?_, accWeight_formula simU e u⟩
    · refine List.pairwise_map.mpr ?_
      have hsorted := (pySortDesc_pairwise (collabWeights simU e u)).sublist
        (pyTake_sublist n _)
      refine hsorted.imp_of_mem ?_
      intro a b ha hb hab
      have ha' : a ∈ collabWeights simU e u :=
        (pySortDesc_perm _).mem_iff.mp ((pyTake_sublist n _).subset ha)
      have hb' : b ∈ collabWeights simU e u :=
        (pySortDesc_perm _).mem_iff.mp ((pyTake_sublist n _).subset hb)
      rw [← hmemw a ha', ← hmemw b hb']
      exact hab
    · rw [pyTake_map]
      refine List.Nodup.sublist (pyTake_sublist n _) ?_
      refine ((pySortDesc_perm (collabWeights simU e u)).map (·.1)).nodup_iff.mpr ?_
      rw [hwts]
      exact dictFold_keys_nodup _
    · rw [List.length_map]
      exact pyTake_length_le hn _
    · intro p hp
      rcases List.mem_map.mp hp with ⟨pr, hpr, hppr⟩
      have hpr' : pr ∈ collabWeights simU e u :=
        (pySortDesc_perm _).mem_iff.mp ((pyTake_sublist n _).subset hpr)
      rw [hwts] at hpr'
      have hkey := (mem_dictFold hpr').1
      rcases List.mem_map.mp hkey with ⟨ev, hev, heq⟩
      rw [collabEvents] at hev
      rcases List.mem_flatMap.mp hev with ⟨vs, hvs, hin⟩
      rcases List.mem_map.mp hin with ⟨q, hq, hqe⟩
      refine ⟨vs, hvs, ?_⟩
      have : q = p := by
        rw [← hppr, ← heq, ← hqe]
      rw [← this]
      exact hq

/-- C4 (counterexample): in `engE4`, candidates 5 and 2 receive the same
accumulated weight `3/5` (from the equal-similarity neighbors u3 and u2
respectively; the float run produces the identical double for both), but
the code outputs `[5, 2]` — insertion order, higher id first — while the
claimed ascending-id tie-break demands `[2, 5]`. -/
theorem C4_collab_tiebreak_counterexample :
    accWeight usim4 engE4 1 5 = accWeight usim4 engE4 1 2
    ∧ collaborative_filtering usim4 engE4 1 5 = [5, 2]
    ∧ collabRankSpecAsc usim4 engE4 1 5 = [2, 5]
    ∧ collaborative_filtering usim4 engE4 1 5 ≠ collabRankSpecAsc usim4 engE4 1 5 :=
  ⟨by decide, by decide, by decide, by decide⟩

/-- C4 (witness): the amended theorem applied to `engE4`. -/
theorem C4_collab_order_w :
    (0 : ℤ) ≤ 5
    ∧ (collaborative_filtering usim4 engE4 1 5).Pairwise
        (fun a b => accWeight usim4 engE4 1 b ≤ accWeight usim4 engE4 1 a)
    ∧ (collaborative_filtering usim4 engE4 1 5).Nodup :=
  ⟨by decide, (C4_collab_order_amended usim4 engE4 1 5 (by decide)).1,
    (C4_collab_order_amended usim4 engE4 1 5 (by decide)).2.1⟩

/-- C5 (amended): the code drops the single top entry of the
descending-sorted similarity column — not the target user — so the target
is excluded only when it is the unique most-similar entry and can appear as
its own neighbor when another user ties at similarity 1.  Two users with
identical purchase rows (equal similarity columns and equal positive-rated
product sets) still receive identical neighbor lists and identical
recommendations. -/
theorem C5_neighbors_amended (simU : ℕ → ℕ → ℚ) (e : Engine) (u v : ℕ)
    (hu : u ∈ pivotUsers e) (hv : v ∈ pivotUsers e)
    (hsim : ∀ w, simU w u = simU w v)
    (hprod : userProducts e u = userProducts e v) :
    collabNeighbors simU e u = collabNeighbors simU e v
    ∧ ∀ n : ℤ, collaborative_filtering simU e u n = collaborative_filtering simU e v n := by
  have hcol : collabCol simU e u = collabCol simU e v := by
    rw [collabCol, collabCol]
    exact List.map_congr_left (fun w _ => by rw [hsim w])
  have hnb : collabNeighbors simU e u = collabNeighbors simU e v := by
    rw [collabNeighbors, collabNeighbors, hcol]
  refine ⟨hnb, fun n => ?_⟩
  have hwts : collabWeights simU e u = collabWeights simU e v := by
    rw [collabWeights, collabWeights, hnb]
    simp only [newProducts, hprod]
  have hcu : (pivotUsers e).contains u = true := List.elem_eq_true_of_mem hu
  have hcv : (pivotUsers e).contains v = true := List.elem_eq_true_of_mem hv
  rw [collaborative_filtering, collaborative_filtering, hwts, hcu, hcv]

/-- C5 (counterexample): in `engE5` users 1 and 2 have identical purchase
sets, so both tie at similarity 1.0; pandas' reversed-stable descending
sort puts user 2 first in user 1's column, and `[1:6]` then keeps user 1
itself — the target user appears in its own neighbor list, refuting "never
including the target user itself". -/
theorem C5_self_neighbor_counterexample :
    collabNeighbors usim5 engE5 1 = [(1, 1)]
    ∧ (1, (1 : ℚ)) ∈ collabNeighbors usim5 engE5 1 :=
  ⟨by decide, by decide⟩

/-- C5 (witness): the amended theorem applied to the identical users 1 and
2 of `engE5`. -/
theorem C5_neighbors_w :
    1 ∈ pivotUsers engE5 ∧ 2 ∈ pivotUsers engE5
    ∧ collaborative_filtering usim5 engE5 1 5 = collaborative_filtering usim5 engE5 2 5 :=
  ⟨by decide, by decide,
    (C5_neighbors_amended usim5 engE5 1 2 (by decide) (by decide)
      (fun _ => rfl) (by decide)).2 5⟩

/-- C6 (confirmed): for every user with no purchase and no view
interactions, `contentRank` uses the default seed set `[1, 2, 3]`, which —
for the 1-based dense product ids of the data model — is exactly the three
lowest catalog product ids, so any two users with no interactions receive
the same `contentRank` result for the same `n`. -/
theorem C6_cold_start (simP : ℕ → ℕ → ℚ) (e : Engine) (u v : ℕ)
    (hup : ∀ i ∈ e.interactions, i.user_id = u → i.interaction_type ≠ IType.purchase)
    (huv : ∀ i ∈ e.interactions, i.user_id = u → i.interaction_type ≠ IType.view)
    (hvp : ∀ i ∈ e.interactions, i.user_id = v → i.interaction_type ≠ IType.purchase)
    (hvv : ∀ i ∈ e.interactions, i.user_id = v → i.interaction_type ≠ IType.view)
    (hdense : e.products.map (·.id) = List.range' 1 e.products.length)
    (hL : 3 ≤ e.products.length) :
    seedsOf e u = [1, 2, 3]
    ∧ seedsOf e u = (e.products.map (·.id)).take 3
    ∧ ∀ n : ℤ, content_based_filtering simP e u n = content_based_filtering simP e v n := by
  have hsu : seedsOf e u = [1, 2, 3] := seedsOf_default e u hup huv
  have hsv : seedsOf e v = [1, 2, 3] := seedsOf_default e v hvp hvv
  have htake : (e.products.map (·.id)).take 3 = [1, 2, 3] := by
    obtain ⟨m, hm⟩ : ∃ m, e.products.length = m + 3 :=
      ⟨e.products.length - 3, by omega⟩
    rw [hdense, hm]
    rfl
  refine ⟨hsu, by rw [hsu, htake], fun n => ?_⟩
  rw [content_based_filtering, content_based_filtering, hsu, hsv]

/-- C6 (witness): the confirmed theorem applied to `engPy` and the two
history-free users 99 and 88. -/
theorem C6_cold_start_w :
    seedsOf engPy 99 = [1, 2, 3]
    ∧ seedsOf engPy 99 = (engPy.products.map (·.id)).take 3
    ∧ content_based_filtering csim4 engPy 99 7 = content_based_filtering csim4 engPy 88 7 := by
  have h := C6_cold_start csim4 engPy 99 88 (by decide) (by decide) (by decide)
    (by decide) (by decide) (by decide)
  exact ⟨h.1, h.2.1, h.2.2 7⟩

/-- C7 (code bug): with a catalog of products 1..3 and an interaction in
which user 7 purchased the nonexistent product 9, `contentRank(7, n)`
raises `IndexError` (row index 8 into the 3×3 content-similarity matrix)
instead of completing, and the dangling product 9 becomes a column of the
user-item purchase matrix instead of being excluded from the similarity
computation. -/
theorem C7_dangling_product_crash :
    (content_based_filtering simOne eng7 7 5).2 = Except.error "IndexError"
    ∧ pivotProducts eng7 = [9] :=
  ⟨by decide, by decide⟩

/-- C8 (amended): ranking never modifies the interaction records or the
existing product fields, but `content_based_filtering` (and therefore
`hybrid_recommendations`) writes the derived `content` column onto the
shared product table; the resulting engine state differs from the input
exactly in that column. -/
theorem C8_state_amended (simU simP : ℕ → ℕ → ℚ) (e : Engine) (u : ℕ) (n : ℤ)
    (hp : e.products ≠ []) (hi : e.interactions ≠ []) :
    (content_based_filtering simP e u n).1
        = { e with contentCol := some (mkContentCol e.products) }
    ∧ (content_based_filtering simP e u n).1.products = e.products
    ∧ (content_based_filtering simP e u n).1.interactions = e.interactions
    ∧ (hybrid_recommendations simU simP e u n).1 = (content_based_filtering simP e u n).1 := by
  have hg : (e.products.isEmpty || e.interactions.isEmpty) = false := by
    simp [List.isEmpty_iff, hp, hi]
  have h1 : (content_based_filtering simP e u n).1
      = { e with contentCol := some (mkContentCol e.products) } := by
    rw [content_based_filtering, if_neg (by rw [hg]; exact Bool.false_ne_true)]
    dsimp only
    rcases contentCollectFrom simP e.products (seedsOf e u) (seedsOf e u)
      with m | cands
    · rfl
    · rfl
  have h4 : (hybrid_recommendations simU simP e u n).1
      = (content_based_filtering simP e u n).1 := by
    rw [hybrid_recommendations]
    rcases hcb : content_based_filtering simP e u n with ⟨e', res⟩
    cases res
    · rfl
    · rfl
  exact ⟨h1, by rw [h1], by rw [h1], h4⟩

/-- C8 (counterexample): the engine state is not read-only — running
`contentRank` on `engPy` sets the `content` column of the shared product
table, so the state after the call differs from the state before. -/
theorem C8_mutation_counterexample :
    engPy.contentCol = none
    ∧ ((content_based_filtering csim4 engPy 1 5).1).contentCol
        = some (mkContentCol engPy.products)
    ∧ (content_based_filtering csim4 engPy 1 5).1 ≠ engPy :=
  ⟨rfl, by decide, by decide⟩

/-- C8 (witness): the amended theorem applied to `engPy`. -/
theorem C8_state_w :
    engPy.products ≠ [] ∧ engPy.interactions ≠ []
    ∧ (content_based_filtering csim4 engPy 1 5).1.interactions = engPy.interactions
    ∧ (hybrid_recommendations usim1 csim4 engPy 1 5).1
        = (content_based_filtering csim4 engPy 1 5).1 :=
  ⟨by decide, by decide,
    (C8_state_amended usim1 csim4 engPy 1 5 (by decide) (by decide)).2.2.1,
    (C8_state_amended usim1 csim4 engPy 1 5 (by decide) (by decide)).2.2.2⟩

/-- C9 (amended): ranking operations never throw for data-absence reasons —
for a catalog of at least three products whose interaction product ids are
in range, `contentRank` and `hybridRank` return `ok` for every user and
every integer `n`, and `collaborativeRank` is total by construction.  A
negative `n` does not throw either: it is interpreted as the Python slice
`l[:n]`, dropping `|n|` trailing candidates. -/
theorem C9_negative_n_amended (simU simP : ℕ → ℕ → ℚ) (e : Engine)
    (hr : ∀ i ∈ e.interactions, 1 ≤ i.product_id ∧ i.product_id ≤ e.products.length)
    (hL : 3 ≤ e.products.length) (u : ℕ) (n : ℤ) :
    (∃ l, (content_based_filtering simP e u n).2 = Except.ok l)
    ∧ (∃ l, (hybrid_recommendations simU simP e u n).2 = Except.ok l) := by
  have h1 := content_ok_of_seed_range simP e u n (seedsOf_range e u hr hL)
  refine ⟨h1, ?_⟩
  obtain ⟨l, hl⟩ := h1
  rw [hybrid_recommendations]
  rcases hcb : content_based_filtering simP e u n with ⟨e', res⟩
  rw [hcb] at hl
  dsimp only at hl
  rw [hl]
  exact ⟨_, rfl⟩

/-- C9 (counterexample): `hybridRank` on `engPy` with `n = -1` does not
throw — it returns `ok [2]`, because Python evaluates the slice `l[:-1]` —
so the claim that ranking throws for negative `n` is false. -/
theorem C9_negative_n_counterexample :
    (hybrid_recommendations usim1 csim4 engPy 1 (-1)).2 = Except.ok [2]
    ∧ collaborative_filtering usim1 engPy 1 (-1) = [] :=
  ⟨by decide, by decide⟩

/-- C9 (witness): the amended theorem applied to `engPy`, user 5, `n = -2`. -/
theorem C9_negative_n_w :
    (∀ i ∈ engPy.interactions, 1 ≤ i.product_id ∧ i.product_id ≤ engPy.products.length)
    ∧ 3 ≤ engPy.products.length
    ∧ ∃ l, (hybrid_recommendations usim1 csim4 engPy 5 (-2)).2 = Except.ok l :=
  ⟨by decide, by decide,
    (C9_negative_n_amended usim1 csim4 engPy (by decide) (by decide) 5 (-2)).2⟩

/-- C10 (confirmed): whenever at least one purchased product name matches a
category keyword, `explain` returns the sentence "Based on your interest in
{joined categories}, we recommend this {name}. It has a {rating}/5 rating
and offers excellent value at ${price}." with the price formatted to two
decimal places; in particular, with purchase history containing "Wireless
Mouse", the explanation for a recommended Electronics product contains the
phrase "Electronics". -/
theorem C10_explain_template :
    (∀ (p : Product) (names : List String), matchedCategories names ≠ [] →
      smartExplanation p names
        = "Based on your interest in " ++ joinAnd (matchedCategories names)
          ++ ", we recommend this " ++ p.name ++ ". It has a "
          ++ fmtFloat1 p.rating ++ "/5 rating and offers excellent value at $"
          ++ fmt2dp p.price ++ ".")
    ∧ (∃ pre post, generate_explanation engX (engX.products.getD 0 dfltProduct)
        (get_user_history engX 7) = pre ++ "Electronics" ++ post) := by
  constructor
  · intro p names hm
    rw [smartExplanation]
    have hne : names.isEmpty = false := by
      cases names with
      | nil => exact absurd rfl hm
      | cons a l => rfl
    rw [hne, if_neg Bool.false_ne_true]
    dsimp only
    have hce : (matchedCategories names).isEmpty = false := by
      simp [List.isEmpty_iff, hm]
    rw [hce, if_neg Bool.false_ne_true]
  · exact ⟨"Based on your interest in ",
      ", we recommend this Wireless Mouse. It has a 4.5/5 rating and offers excellent value at $29.99.",
      by decide⟩

/-- C10 (witness): the template conjunct applied to the §8 scenario product
and purchase history. -/
theorem C10_explain_w :
    smartExplanation
        ⟨1, "Wireless Mouse", "Electronics", "Ergonomic wireless mouse", 2999/100, 9/2⟩
        ["Wireless Mouse"]
      = "Based on your interest in Electronics, we recommend this Wireless Mouse. It has a 4.5/5 rating and offers excellent value at $29.99." := by
  have h := C10_explain_template.1
    ⟨1, "Wireless Mouse", "Electronics", "Ergonomic wireless mouse", 2999/100, 9/2⟩
    ["Wireless Mouse"] (by decide)
  rw [h]
  decide

end RecSys
